import Mathlib

/-!
Verification of the `ThreadPool` worker pool in
`src/implementations/04_workerpool.cpp`.

The pool's shared state is a stop flag, a FIFO job queue, and a vector of
worker threads.  Every access to the flag and the queue in the source happens
under the single mutex `mu`, so each locked region is embedded as one atomic
Lean function on the shared state, and the concurrent execution of workers,
submitters and the destructor is embedded as a labeled small-step transition
relation that interleaves those atomic regions.  Jobs are identified by
natural numbers (each submission instance gets an id); ghost history fields
(`submitted`, `dequeued`, `executed`) record the order of events without
influencing any transition.
-/

namespace WorkerPool

/-- Status of one worker thread: blocked in `cv.wait` (`waiting`), executing a
job outside the lock after popping it (`running j`), or returned from
`worker_loop` (`stopped`). -/
inductive WStatus : Type
  | waiting : WStatus
  | running : Nat → WStatus
  | stopped : WStatus
  deriving DecidableEq, Repr

/-- The wake condition of the worker, from the lambda at lines 41-42 of
`04_workerpool.cpp`: `return stop || !jobs.empty();`. -/
def wakePred (stop : Bool) (jobs : List Nat) : Bool :=
  stop || !jobs.isEmpty

/-- Outcome of one pass through the locked region of `worker_loop`
(lines 38-52): the worker either keeps waiting (`cv.wait` predicate false),
returns from the loop (line 45), pops the head job (lines 48-49), or would
hit the undefined behavior of `front`/`pop` on an empty queue (`ub`). -/
inductive WakeResult : Type
  | stillWaiting : WakeResult
  | exited : WakeResult
  | tookJob : Nat → List Nat → WakeResult
  | ub : WakeResult
  deriving DecidableEq, Repr

/-- One atomic pass through the locked region of `worker_loop`, translated
line by line from `04_workerpool.cpp` lines 41-49: re-check the wait
predicate, then `if (stop && jobs.empty()) return;`, then
`job = move(jobs.front()); jobs.pop();` where popping an empty `std::queue`
is undefined behavior, embedded as the explicit marker `ub`. -/
def onWake (stop : Bool) (jobs : List Nat) : WakeResult :=
  if !wakePred stop jobs then .stillWaiting
  else if stop && jobs.isEmpty then .exited
  else
    match jobs with
    | [] => .ub
    | j :: rest => .tookJob j rest

/-- Shared state of one `ThreadPool` instance plus ghost history.  `stop`,
`jobs` and `workers` embed the fields of the class; `submitted`, `dequeued`
and `executed` are ghost event histories; `done` records that the destructor
has finished joining all workers. -/
structure PoolState : Type where
  stop : Bool
  jobs : List Nat
  workers : List WStatus
  submitted : List Nat
  dequeued : List Nat
  executed : List Nat
  done : Bool
  deriving DecidableEq, Repr

/-- Which condition-variable call a locked region performs after unlocking. -/
inductive NotifyKind : Type
  | one : NotifyKind
  | all : NotifyKind
  deriving DecidableEq, Repr

/-- `ThreadPool::enqueue` (lines 73-90): under the lock, push the job at the
tail of the queue; after releasing the lock, `cv.notify_one()`.  There is no
conditional in the source: no rejection branch, no check of `stop`. -/
def enqueueImpl (s : PoolState) (job : Nat) : PoolState × NotifyKind :=
  ({ s with jobs := s.jobs ++ [job], submitted := s.submitted ++ [job] },
   NotifyKind.one)

/-- The constructor loop `for (int i = 0; i < numOfWorkers; i++)` of
`ThreadPool::ThreadPool` (lines 63-71), spawning one worker per iteration.
The counter is a C++ `int`, embedded as `Int`. -/
def spawnWorkers (i numOfWorkers : Int) (acc : List WStatus) : List WStatus :=
  if i < numOfWorkers then
    spawnWorkers (i + 1) numOfWorkers (acc ++ [WStatus.waiting])
  else acc
termination_by (numOfWorkers - i).toNat
decreasing_by omega

/-- `ThreadPool::ThreadPool(int numOfWorkers)` (lines 63-71): member-init list
sets `stop(false)`; the vector of workers starts empty and the loop spawns
one worker per iteration; the `std::queue` default-constructs empty. -/
def mkPool (numOfWorkers : Int) : PoolState :=
  { stop := false
    jobs := []
    workers := spawnWorkers 0 numOfWorkers []
    submitted := []
    dequeued := []
    executed := []
    done := false }

/-- Observable actions of a locked region or of the destructor, used to state
ordering claims about `~ThreadPool` and `enqueue`. -/
inductive Action : Type
  | lockAcquire : Action
  | pushJob : Action
  | setStopFlag : Action
  | lockRelease : Action
  | notifyOneWaiter : Action
  | notifyAllWaiters : Action
  | joinWorker : Nat → Action
  deriving DecidableEq, Repr

/-- The straight-line action sequence of `ThreadPool::~ThreadPool`
(lines 92-108): a scope acquiring the lock, `stop = true`, scope exit
releasing the lock, `cv.notify_all()`, then a join of each worker in order. -/
def destructorActions (numWorkers : Nat) : List Action :=
  [Action.lockAcquire, Action.setStopFlag, Action.lockRelease,
   Action.notifyAllWaiters] ++ (List.range numWorkers).map Action.joinWorker

/-- The straight-line action sequence of `ThreadPool::enqueue` (lines 73-90):
a scope acquiring the lock, the push, scope exit releasing the lock, then
`cv.notify_one()`. -/
def enqueueActions : List Action :=
  [Action.lockAcquire, Action.pushJob, Action.lockRelease,
   Action.notifyOneWaiter]

/-- Labels of the interleaving steps. -/
inductive Label : Type
  | enq : Nat → Label
  | wake : Nat → Label
  | spur : Nat → Label
  | exitw : Nat → Label
  | fin : Nat → Label
  | setStop : Label
  | complete : Label
  deriving DecidableEq, Repr

/-- Interleaving semantics of one pool: each constructor is one atomic locked
region (or the lock-free job execution / join).  The parameter `late`
distinguishes the trace sets we quantify over: with `late = true` submitters
may call `enqueue` at any time (as the source allows); with `late = false`
we restrict attention to traces whose submissions all happen before the
destructor sets the stop flag ("submitted before shutdown begins"). -/
inductive Step (late : Bool) : Label → PoolState → PoolState → Prop
  | enq (s : PoolState) (j : Nat) (hl : late = true ∨ s.stop = false) :
      Step late (Label.enq j) s (enqueueImpl s j).1
  | wake (s : PoolState) (i j : Nat) (rest : List Nat)
      (hw : s.workers[i]? = some WStatus.waiting)
      (ho : onWake s.stop s.jobs = WakeResult.tookJob j rest) :
      Step late (Label.wake i) s
        { s with workers := s.workers.set i (WStatus.running j)
                 jobs := rest
                 dequeued := s.dequeued ++ [j] }
  | spur (s : PoolState) (i : Nat)
      (hw : s.workers[i]? = some WStatus.waiting)
      (ho : onWake s.stop s.jobs = WakeResult.stillWaiting) :
      Step late (Label.spur i) s s
  | exitw (s : PoolState) (i : Nat)
      (hw : s.workers[i]? = some WStatus.waiting)
      (ho : onWake s.stop s.jobs = WakeResult.exited) :
      Step late (Label.exitw i) s
        { s with workers := s.workers.set i WStatus.stopped }
  | fin (s : PoolState) (i j : Nat)
      (hw : s.workers[i]? = some (WStatus.running j)) :
      Step late (Label.fin i) s
        { s with workers := s.workers.set i WStatus.waiting
                 executed := s.executed ++ [j] }
  | setStop (s : PoolState) :
      Step late Label.setStop s { s with stop := true }
  | complete (s : PoolState) (hs : s.stop = true)
      (hall : ∀ w ∈ s.workers, w = WStatus.stopped) :
      Step late Label.complete s { s with done := true }

/-- Reachability through interleaved steps. -/
inductive Reach (late : Bool) (s : PoolState) : PoolState → Prop
  | refl : Reach late s s
  | tail {t u : PoolState} {l : Label} :
      Reach late s t → Step late l t u → Reach late s u

/-- Multiset of jobs currently held (popped but not yet finished) by one
worker. -/
def jobMass : WStatus → Multiset Nat
  | WStatus.running j => {j}
  | _ => 0

/-- Multiset of in-flight jobs across all workers. -/
def inFlight (ws : List WStatus) : Multiset Nat :=
  (ws.map jobMass).sum

/-- A one-worker pool right after construction, used to exhibit concrete
executions. -/
def demoInit : PoolState := ⟨false, [], [WStatus.waiting], [], [], [], false⟩

/-- The demo pool after `enqueue` of job 5. -/
def demoEnq : PoolState := ⟨false, [5], [WStatus.waiting], [5], [], [], false⟩

/-- The demo pool after the worker pops job 5. -/
def demoTook : PoolState :=
  ⟨false, [], [WStatus.running 5], [5], [5], [], false⟩

/-- The demo pool after the worker finishes job 5. -/
def demoRan : PoolState := ⟨false, [], [WStatus.waiting], [5], [5], [5], false⟩

/-- The demo pool after the destructor sets the stop flag. -/
def demoStopFlagged : PoolState :=
  ⟨true, [], [WStatus.waiting], [5], [5], [5], false⟩

/-- The demo pool after the worker observes stop-and-empty and returns. -/
def demoExited : PoolState :=
  ⟨true, [], [WStatus.stopped], [5], [5], [5], false⟩

/-- The demo pool after the destructor joins the worker. -/
def demoDone : PoolState := ⟨true, [], [WStatus.stopped], [5], [5], [5], true⟩

theorem onWake_eq_stillWaiting_iff (stop : Bool) (jobs : List Nat) :
    onWake stop jobs = WakeResult.stillWaiting ↔ wakePred stop jobs = false := by
  cases stop <;> cases jobs <;> simp [onWake, wakePred]

theorem onWake_eq_exited_iff (stop : Bool) (jobs : List Nat) :
    onWake stop jobs = WakeResult.exited ↔ (stop = true ∧ jobs = []) := by
  cases stop <;> cases jobs <;> simp [onWake, wakePred]

theorem onWake_eq_tookJob_iff (stop : Bool) (jobs : List Nat) (j : Nat)
    (rest : List Nat) :
    onWake stop jobs = WakeResult.tookJob j rest ↔ jobs = j :: rest := by
  cases stop <;> cases jobs <;> simp [onWake, wakePred]

theorem spawnWorkers_eq (i numOfWorkers : Int) (acc : List WStatus) :
    spawnWorkers i numOfWorkers acc
      = acc ++ List.replicate (numOfWorkers - i).toNat WStatus.waiting := by
  rw [spawnWorkers]
  by_cases h : i < numOfWorkers
  · rw [if_pos h, spawnWorkers_eq (i + 1) numOfWorkers (acc ++ [WStatus.waiting])]
    have h1 : (numOfWorkers - i).toNat = (numOfWorkers - (i + 1)).toNat + 1 := by
      omega
    rw [h1, List.append_assoc]
    congr 1
  · rw [if_neg h]
    have h0 : (numOfWorkers - i).toNat = 0 := by omega
    simp [h0]
termination_by (numOfWorkers - i).toNat
decreasing_by omega

theorem mkPool_workers (numOfWorkers : Int) :
    (mkPool numOfWorkers).workers
      = List.replicate numOfWorkers.toNat WStatus.waiting := by
  show spawnWorkers 0 numOfWorkers [] = _
  rw [spawnWorkers_eq]
  simp

theorem inFlight_nil : inFlight [] = 0 := rfl

theorem inFlight_cons (w : WStatus) (ws : List WStatus) :
    inFlight (w :: ws) = jobMass w + inFlight ws := by
  simp [inFlight]

theorem inFlight_replicate_waiting (k : Nat) :
    inFlight (List.replicate k WStatus.waiting) = 0 := by
  induction k with
  | zero => rfl
  | succ k ih => rw [List.replicate_succ, inFlight_cons, ih]; rfl

theorem inFlight_eq_zero_of_no_running (ws : List WStatus)
    (h : ∀ w ∈ ws, jobMass w = 0) : inFlight ws = 0 := by
  induction ws with
  | nil => rfl
  | cons w ws ih =>
      rw [inFlight_cons, h w (List.mem_cons_self w ws),
        ih fun x hx => h x (List.mem_cons_of_mem w hx)]
      rfl

theorem inFlight_set (ws : List WStatus) (i : Nat) (a b : WStatus)
    (h : ws[i]? = some a) :
    inFlight (ws.set i b) + jobMass a = inFlight ws + jobMass b := by
  induction ws generalizing i with
  | nil => simp at h
  | cons w ws ih =>
      cases i with
      | zero =>
          simp only [List.getElem?_cons_zero, Option.some.injEq] at h
          subst h
          simp only [List.set_cons_zero, inFlight_cons]
          abel
      | succ i =>
          simp only [List.getElem?_cons_succ] at h
          simp only [List.set_cons_succ, inFlight_cons]
          rw [add_assoc, ih i h, ← add_assoc]

theorem step_workers_length {late : Bool} {l : Label} {s s' : PoolState}
    (h : Step late l s s') : s'.workers.length = s.workers.length := by
  cases h <;> simp [enqueueImpl]

theorem reach_workers_length {late : Bool} {s0 s : PoolState}
    (h : Reach late s0 s) : s.workers.length = s0.workers.length := by
  induction h with
  | refl => rfl
  | tail hr hs ih => rw [step_workers_length hs, ih]

theorem step_stop_mono {late : Bool} {l : Label} {s s' : PoolState}
    (h : Step late l s s') (hs : s.stop = true) : s'.stop = true := by
  cases h <;> first | exact hs | rfl

theorem reach_stop_mono {late : Bool} {s0 s : PoolState}
    (h : Reach late s0 s) (hs : s0.stop = true) : s.stop = true := by
  induction h with
  | refl => exact hs
  | tail hr hst ih => exact step_stop_mono hst ih

theorem step_stop_writer {late : Bool} {l : Label} {s s' : PoolState}
    (h : Step late l s s') (hne : s'.stop ≠ s.stop) :
    l = Label.setStop ∧ s'.stop = true := by
  cases h <;> first | exact absurd rfl hne | exact ⟨rfl, rfl⟩

theorem reach_hist {late : Bool} {n : Int} {s : PoolState}
    (h : Reach late (mkPool n) s) : s.dequeued ++ s.jobs = s.submitted := by
  induction h with
  | refl => rfl
  | @tail t u l hr hs ih =>
      cases hs with
      | enq _s j hl =>
          show t.dequeued ++ (t.jobs ++ [j]) = t.submitted ++ [j]
          rw [← List.append_assoc, ih]
      | wake _s i j rest hw ho =>
          have hj : t.jobs = j :: rest := (onWake_eq_tookJob_iff _ _ _ _).mp ho
          show (t.dequeued ++ [j]) ++ rest = t.submitted
          rw [List.append_assoc]
          rw [hj] at ih
          exact ih
      | spur _s i hw ho => exact ih
      | exitw _s i hw ho => exact ih
      | fin _s i j hw => exact ih
      | setStop _s => exact ih
      | complete _s hst hall => exact ih

theorem reach_mass {late : Bool} {n : Int} {s : PoolState}
    (h : Reach late (mkPool n) s) :
    (s.submitted : Multiset Nat)
      = ↑s.executed + ↑s.jobs + inFlight s.workers := by
  induction h with
  | refl =>
      show (([] : List Nat) : Multiset Nat)
        = ↑([] : List Nat) + ↑([] : List Nat) + inFlight (mkPool n).workers
      rw [mkPool_workers, inFlight_replicate_waiting]
      simp
  | @tail t u l hr hs ih =>
      cases hs with
      | enq _s j hl =>
          show ((t.submitted ++ [j] : List Nat) : Multiset Nat)
            = ↑t.executed + ↑(t.jobs ++ [j]) + inFlight t.workers
          rw [← Multiset.coe_add, ← Multiset.coe_add, ih]
          abel
      | wake _s i j rest hw ho =>
          have hj : t.jobs = j :: rest := (onWake_eq_tookJob_iff _ _ _ _).mp ho
          have hset : inFlight (t.workers.set i (WStatus.running j))
              = inFlight t.workers + {j} := by
            have h0 := inFlight_set t.workers i WStatus.waiting
              (WStatus.running j) hw
            simpa [jobMass] using h0
          show (t.submitted : Multiset Nat)
            = ↑t.executed + ↑rest
                + inFlight (t.workers.set i (WStatus.running j))
          rw [hset, ih, hj]
          have hc : ((j :: rest : List Nat) : Multiset Nat) = {j} + ↑rest := by
            simp [Multiset.singleton_add]
          rw [hc]
          abel
      | spur _s i hw ho => exact ih
      | exitw _s i hw ho =>
          have hset : inFlight (t.workers.set i WStatus.stopped)
              = inFlight t.workers := by
            have h0 := inFlight_set t.workers i WStatus.waiting
              WStatus.stopped hw
            simpa [jobMass] using h0
          show (t.submitted : Multiset Nat)
            = ↑t.executed + ↑t.jobs + inFlight (t.workers.set i WStatus.stopped)
          rw [hset]
          exact ih
      | fin _s i j hw =>
          have hset : inFlight (t.workers.set i WStatus.waiting) + {j}
              = inFlight t.workers := by
            have h0 := inFlight_set t.workers i (WStatus.running j)
              WStatus.waiting hw
            simpa [jobMass] using h0
          show (t.submitted : Multiset Nat)
            = ↑(t.executed ++ [j]) + ↑t.jobs
                + inFlight (t.workers.set i WStatus.waiting)
          rw [← Multiset.coe_add, ih, ← hset]
          have hc : (([j] : List Nat) : Multiset Nat) = {j} := by simp
          rw [hc]
          abel
      | setStop _s => exact ih
      | complete _s hst hall => exact ih

theorem reach_stopped_stop {late : Bool} {n : Int} {s : PoolState}
    (h : Reach late (mkPool n) s) (hm : WStatus.stopped ∈ s.workers) :
    s.stop = true := by
  induction h with
  | refl =>
      rw [mkPool_workers] at hm
      exact absurd (List.eq_of_mem_replicate hm) (by simp)
  | @tail t u l hr hs ih =>
      cases hs with
      | enq _s j hl => exact ih hm
      | wake _s i j rest hw ho =>
          rcases List.mem_or_eq_of_mem_set hm with h1 | h1
          · exact ih h1
          · exact absurd h1 (by simp)
      | spur _s i hw ho => exact ih hm
      | exitw _s i hw ho => exact ((onWake_eq_exited_iff _ _).mp ho).1
      | fin _s i j hw =>
          rcases List.mem_or_eq_of_mem_set hm with h1 | h1
          · exact ih h1
          · exact absurd h1 (by simp)
      | setStop _s => rfl
      | complete _s hst hall => exact ih hm

theorem reach_done_stopped {late : Bool} {n : Int} {s : PoolState}
    (h : Reach late (mkPool n) s) (hd : s.done = true) :
    s.stop = true ∧ ∀ w ∈ s.workers, w = WStatus.stopped := by
  induction h with
  | refl => exact absurd hd (by simp [mkPool])
  | @tail t u l hr hs ih =>
      cases hs with
      | enq _s j hl => exact ih hd
      | wake _s i j rest hw ho =>
          obtain ⟨h1, h2⟩ := ih hd
          exact absurd (h2 _ (List.getElem?_mem hw)) (by simp)
      | spur _s i hw ho => exact ih hd
      | exitw _s i hw ho =>
          obtain ⟨h1, h2⟩ := ih hd
          exact absurd (h2 _ (List.getElem?_mem hw)) (by simp)
      | fin _s i j hw =>
          obtain ⟨h1, h2⟩ := ih hd
          exact absurd (h2 _ (List.getElem?_mem hw)) (by simp)
      | setStop _s =>
          obtain ⟨h1, h2⟩ := ih hd
          exact ⟨rfl, h2⟩
      | complete _s hst hall => exact ⟨hst, hall⟩

theorem reach_allstopped_empty {n : Int} {s : PoolState}
    (h : Reach false (mkPool n) s) (hne : s.workers ≠ [])
    (hall : ∀ w ∈ s.workers, w = WStatus.stopped) : s.jobs = [] := by
  induction h with
  | refl => rfl
  | @tail t u l hr hs ih =>
      cases hs with
      | enq _s j hl =>
          rcases hl with h0 | h0
          · exact absurd h0 (by simp)
          · obtain ⟨w, hwmem⟩ := List.exists_mem_of_ne_nil t.workers hne
            have hw := hall w hwmem
            subst hw
            have hstop := reach_stopped_stop hr hwmem
            rw [h0] at hstop
            exact absurd hstop (by simp)
      | wake _s i j rest hw ho =>
          have hlen : i < t.workers.length := by
            rcases List.getElem?_eq_some.mp hw with ⟨hlt, _⟩
            exact hlt
          have hmem : WStatus.running j
              ∈ t.workers.set i (WStatus.running j) :=
            List.getElem?_mem (List.getElem?_set_self hlen)
          exact absurd (hall _ hmem) (by simp)
      | spur _s i hw ho => exact ih hne hall
      | exitw _s i hw ho => exact ((onWake_eq_exited_iff _ _).mp ho).2
      | fin _s i j hw =>
          have hlen : i < t.workers.length := by
            rcases List.getElem?_eq_some.mp hw with ⟨hlt, _⟩
            exact hlt
          have hmem : WStatus.waiting ∈ t.workers.set i WStatus.waiting :=
            List.getElem?_mem (List.getElem?_set_self hlen)
          exact absurd (hall _ hmem) (by simp)
      | setStop _s => exact ih hne hall
      | complete _s hst hall2 => exact ih hne hall

theorem reach_zero_workers {late : Bool} {n : Int} {s : PoolState}
    (h : Reach late (mkPool n) s) (hn : n ≤ 0) :
    s.workers = [] ∧ s.executed = [] ∧ s.dequeued = [] := by
  induction h with
  | refl =>
      refine ⟨?_, rfl, rfl⟩
      rw [mkPool_workers]
      have h0 : n.toNat = 0 := by omega
      rw [h0]
      rfl
  | tail hr hs ih =>
      obtain ⟨hw0, he0, hd0⟩ := ih
      cases hs with
      | enq _s j hl => exact ⟨hw0, he0, hd0⟩
      | wake _s i j rest hw ho =>
          rw [hw0] at hw
          exact absurd hw (by simp)
      | spur _s i hw ho => exact ⟨hw0, he0, hd0⟩
      | exitw _s i hw ho =>
          rw [hw0] at hw
          exact absurd hw (by simp)
      | fin _s i j hw =>
          rw [hw0] at hw
          exact absurd hw (by simp)
      | setStop _s => exact ⟨hw0, he0, hd0⟩
      | complete _s hst hall => exact ⟨hw0, he0, hd0⟩

theorem mkPool_one : mkPool 1 = demoInit := by
  unfold mkPool demoInit
  rw [spawnWorkers_eq]
  decide

theorem demo_step1 : Step false (Label.enq 5) demoInit demoEnq :=
  Step.enq demoInit 5 (Or.inr rfl)

theorem demo_step2 : Step false (Label.wake 0) demoEnq demoTook :=
  Step.wake demoEnq 0 5 [] rfl rfl

theorem demo_step3 : Step false (Label.fin 0) demoTook demoRan :=
  Step.fin demoTook 0 5 rfl

theorem demo_step4 : Step false Label.setStop demoRan demoStopFlagged :=
  Step.setStop demoRan

theorem demo_step5 : Step false (Label.exitw 0) demoStopFlagged demoExited :=
  Step.exitw demoStopFlagged 0 rfl rfl

theorem demo_step6 : Step false Label.complete demoExited demoDone :=
  Step.complete demoExited rfl (by decide)

theorem reach_demoDone : Reach false (mkPool 1) demoDone := by
  rw [mkPool_one]
  exact Reach.tail
    (Reach.tail
      (Reach.tail
        (Reach.tail (Reach.tail (Reach.tail Reach.refl demo_step1) demo_step2)
          demo_step3)
        demo_step4)
      demo_step5)
    demo_step6

/-- Claim C1: for every sequence of jobs submitted to the pool before shutdown
begins (traces whose `enqueue` steps all precede the setting of the stop
flag), completion of shutdown (`done = true`) implies every submitted job has
been executed exactly once: the multiset of executed jobs equals the multiset
of submitted jobs, so no submitted job is lost and none runs twice.  Requires
at least one worker, the precondition of construction (§4.3). -/
theorem submitted_jobs_execute_exactly_once (n : Int) (s : PoolState)
    (hr : Reach false (mkPool n) s) (hn : 1 ≤ n) (hd : s.done = true) :
    (s.executed : Multiset Nat) = (s.submitted : Multiset Nat) ∧
    ∀ j, s.executed.count j = s.submitted.count j := by
  obtain ⟨hstop, hall⟩ := reach_done_stopped hr hd
  have hlen : s.workers.length = n.toNat := by
    rw [reach_workers_length hr, mkPool_workers, List.length_replicate]
  have hne : s.workers ≠ [] := by
    intro h0
    rw [h0] at hlen
    simp at hlen
    omega
  have hempty : s.jobs = [] := reach_allstopped_empty hr hne hall
  have hifz : inFlight s.workers = 0 :=
    inFlight_eq_zero_of_no_running s.workers fun w hw => by rw [hall w hw]; rfl
  have hmass := reach_mass hr
  rw [hempty, hifz] at hmass
  simp only [Multiset.coe_nil, add_zero] at hmass
  refine ⟨hmass.symm, fun j => ?_⟩
  rw [← Multiset.coe_count, ← Multiset.coe_count, hmass]

theorem submitted_jobs_execute_exactly_once_witness :
    (demoDone.executed : Multiset Nat) = (demoDone.submitted : Multiset Nat) :=
  (submitted_jobs_execute_exactly_once 1 demoDone reach_demoDone (by norm_num)
    rfl).1

/-- Claim C2: the locked check of `worker_loop` makes the worker return (reach
its terminal Stopped state) exactly when it observes `stop == true` and an
empty queue; consequently, in any pre-shutdown-submission trace, whenever all
workers of a (nonempty) worker set are stopped the queue is empty, so every
job queued before the stop flag was set was drained before the last worker
stopped. -/
theorem worker_stops_iff_stop_and_empty :
    (∀ (stop : Bool) (jobs : List Nat),
        onWake stop jobs = WakeResult.exited ↔ (stop = true ∧ jobs = [])) ∧
    (∀ (n : Int) (s : PoolState), Reach false (mkPool n) s →
        s.workers ≠ [] → (∀ w ∈ s.workers, w = WStatus.stopped) →
        s.jobs = []) :=
  ⟨onWake_eq_exited_iff, fun _ _ hr => reach_allstopped_empty hr⟩

theorem worker_stops_iff_stop_and_empty_witness :
    (onWake true ([] : List Nat) = WakeResult.exited
      ↔ (true = true ∧ ([] : List Nat) = [])) ∧
    demoDone.jobs = [] :=
  ⟨worker_stops_iff_stop_and_empty.1 true [],
   worker_stops_iff_stop_and_empty.2 1 demoDone reach_demoDone (by decide)
     (by decide)⟩

/-- Claim C3: the wake condition is exactly `(stop) OR (queue non-empty)`:
a wake whose predicate is false leaves the worker waiting (`stillWaiting`),
no step can move a worker out of Waiting unless the predicate holds at that
moment, and whenever the predicate holds a waiting worker has an enabled step
out of Waiting. -/
theorem wake_condition_is_exact :
    (∀ (stop : Bool) (jobs : List Nat),
        onWake stop jobs = WakeResult.stillWaiting
          ↔ wakePred stop jobs = false) ∧
    (∀ (stop : Bool) (jobs : List Nat),
        wakePred stop jobs = (stop || !jobs.isEmpty)) ∧
    (∀ (late : Bool) (l : Label) (s s' : PoolState) (i : Nat),
        Step late l s s' → s.workers[i]? = some WStatus.waiting →
        s'.workers[i]? ≠ some WStatus.waiting →
        wakePred s.stop s.jobs = true) ∧
    (∀ (s : PoolState) (i : Nat), s.workers[i]? = some WStatus.waiting →
        wakePred s.stop s.jobs = true →
        ∃ (l : Label) (s' : PoolState), Step false l s s' ∧
          s'.workers[i]? ≠ some WStatus.waiting) := by
  refine ⟨onWake_eq_stillWaiting_iff, fun _ _ => rfl, ?_, ?_⟩
  · intro late l s s' i hst hw hne
    cases hst with
    | enq _s j hl => exact absurd hw hne
    | wake _s i0 j rest hw0 ho0 =>
        by_cases hii : i0 = i
        · subst hii
          have hj : s.jobs = j :: rest := (onWake_eq_tookJob_iff _ _ _ _).mp ho0
          simp [wakePred, hj]
        · rw [show (s.workers.set i0 (WStatus.running j))[i]? = s.workers[i]?
            from List.getElem?_set_ne hii] at hne
          exact absurd hw hne
    | spur _s i0 hw0 ho0 => exact absurd hw hne
    | exitw _s i0 hw0 ho0 =>
        have hs : s.stop = true := ((onWake_eq_exited_iff _ _).mp ho0).1
        simp [wakePred, hs]
    | fin _s i0 j hw0 =>
        by_cases hii : i0 = i
        · subst hii
          rw [hw0] at hw
          exact absurd hw (by simp)
        · rw [show (s.workers.set i0 WStatus.waiting)[i]? = s.workers[i]?
            from List.getElem?_set_ne hii] at hne
          exact absurd hw hne
    | setStop _s => exact absurd hw hne
    | complete _s hst hall => exact absurd hw hne
  · intro s i hw hp
    have hlen : i < s.workers.length := (List.getElem?_eq_some.mp hw).1
    cases hj : s.jobs with
    | nil =>
        have hs : s.stop = true := by
          rw [hj] at hp
          simpa [wakePred] using hp
        refine ⟨Label.exitw i, _, Step.exitw s i hw ?_, ?_⟩
        · rw [onWake_eq_exited_iff]
          exact ⟨hs, hj⟩
        · rw [List.getElem?_set_self hlen]
          simp
    | cons j rest =>
        refine ⟨Label.wake i, _, Step.wake s i j rest hw ?_, ?_⟩
        · rw [onWake_eq_tookJob_iff]
          exact hj
        · rw [List.getElem?_set_self hlen]
          simp

theorem wake_condition_is_exact_witness :
    wakePred demoEnq.stop demoEnq.jobs = true :=
  wake_condition_is_exact.2.2.1 false (Label.wake 0) demoEnq demoTook 0
    demo_step2 rfl (by decide)

/-- Claim C4: `enqueue` always succeeds: it is unconditional (no rejection
branch, enabled in the interleaving semantics in every state, including after
shutdown has been requested), appends exactly one job at the tail of the
queue (length grows by one), leaves the stop flag and workers untouched, and
then performs `notify_one`, not `notify_all`. -/
theorem enqueue_always_succeeds_appends_one (s : PoolState) (j : Nat) :
    (enqueueImpl s j).1.jobs = s.jobs ++ [j] ∧
    (enqueueImpl s j).1.jobs.length = s.jobs.length + 1 ∧
    (enqueueImpl s j).2 = NotifyKind.one ∧
    (enqueueImpl s j).1.stop = s.stop ∧
    (enqueueImpl s j).1.workers = s.workers ∧
    Step true (Label.enq j) s (enqueueImpl s j).1 ∧
    enqueueActions.count Action.notifyOneWaiter = 1 ∧
    enqueueActions.count Action.notifyAllWaiters = 0 :=
  ⟨rfl, by simp [enqueueImpl], rfl, rfl, rfl, Step.enq s j (Or.inl rfl),
   by decide, by decide⟩

/-- Claim C5: the destructor sets the stop flag while holding the lock,
releases the lock, then wakes all workers with `notify_all` (never
`notify_one`), then joins each worker; and shutdown completion (`done`)
implies the stop flag was set and every worker reached Stopped — the calling
thread does not complete while a worker is still running. -/
theorem destructor_orders_stop_broadcast_join (n : Nat) :
    (destructorActions n).take 4
      = [Action.lockAcquire, Action.setStopFlag, Action.lockRelease,
         Action.notifyAllWaiters] ∧
    (destructorActions n).drop 4 = (List.range n).map Action.joinWorker ∧
    (destructorActions n).count Action.notifyOneWaiter = 0 ∧
    (destructorActions n).count Action.notifyAllWaiters = 1 ∧
    (∀ i, i < n → Action.joinWorker i ∈ destructorActions n) ∧
    (∀ (late : Bool) (m : Int) (s : PoolState), Reach late (mkPool m) s →
        s.done = true →
        s.stop = true ∧ ∀ w ∈ s.workers, w = WStatus.stopped) := by
  refine ⟨rfl, rfl, ?_, ?_, ?_, fun _ _ _ hr hd => reach_done_stopped hr hd⟩
  · rw [destructorActions, List.count_append]
    have hc : (List.count Action.notifyOneWaiter
        ((List.range n).map Action.joinWorker)) = 0 := by
      rw [List.count_eq_zero]
      simp
    rw [hc]
    decide
  · rw [destructorActions, List.count_append]
    have hc : (List.count Action.notifyAllWaiters
        ((List.range n).map Action.joinWorker)) = 0 := by
      rw [List.count_eq_zero]
      simp
    rw [hc]
    decide
  · intro i hi
    rw [destructorActions, List.mem_append]
    exact Or.inr (List.mem_map_of_mem _ (List.mem_range.mpr hi))

theorem destructor_orders_witness :
    demoDone.stop = true ∧ ∀ w ∈ demoDone.workers, w = WStatus.stopped :=
  (destructor_orders_stop_broadcast_join 1).2.2.2.2.2 false 1 demoDone
    reach_demoDone rfl

/-- Claim C6: the head-removal pair (`front` then `pop`) is reached only with
a non-empty queue: every pass through the locked region either keeps waiting,
or exits on stop-and-empty, or pops a job from a queue that is provably of
the form `j :: rest`; the undefined pop-on-empty outcome `ub` is never
produced. -/
theorem pop_only_on_nonempty_queue (stop : Bool) (jobs : List Nat) :
    onWake stop jobs = WakeResult.stillWaiting ∨
    onWake stop jobs = WakeResult.exited ∨
    ∃ j rest, onWake stop jobs = WakeResult.tookJob j rest
      ∧ jobs = j :: rest := by
  cases stop <;> cases jobs <;>
    first
      | exact Or.inl rfl
      | exact Or.inr (Or.inl rfl)
      | exact Or.inr (Or.inr ⟨_, _, rfl, rfl⟩)

/-- Claim C7: for every `numOfWorkers ≥ 1` the constructor spawns exactly
`numOfWorkers` workers before returning, each beginning in the Waiting state,
initializes the stop flag to false, and leaves the job queue empty. -/
theorem constructor_spawns_and_inits (n : Int) (hn : 1 ≤ n) :
    ((mkPool n).workers.length : Int) = n ∧
    (mkPool n).workers.length = n.toNat ∧
    (mkPool n).stop = false ∧
    (mkPool n).jobs = [] ∧
    ∀ w ∈ (mkPool n).workers, w = WStatus.waiting := by
  have hlen : (mkPool n).workers.length = n.toNat := by
    rw [mkPool_workers, List.length_replicate]
  refine ⟨by rw [hlen]; omega, hlen, rfl, rfl, fun w hw => ?_⟩
  rw [mkPool_workers] at hw
  exact List.eq_of_mem_replicate hw

theorem constructor_spawns_and_inits_witness :
    ((mkPool 2).workers.length : Int) = 2 ∧
    (mkPool 2).workers.length = (2 : Int).toNat ∧
    (mkPool 2).stop = false ∧
    (mkPool 2).jobs = [] ∧
    ∀ w ∈ (mkPool 2).workers, w = WStatus.waiting :=
  constructor_spawns_and_inits 2 (by norm_num)

/-- Claim C8: the queue is strict FIFO: `enqueue` appends at the tail and
workers remove the head, so in every reachable state the dequeue history
followed by the pending queue equals the submission history; in particular
the order in which jobs begin executing is exactly a prefix of the order in
which they were submitted. -/
theorem fifo_dequeue_order (late : Bool) (n : Int) (s : PoolState)
    (hr : Reach late (mkPool n) s) :
    s.dequeued ++ s.jobs = s.submitted ∧
    s.dequeued = s.submitted.take s.dequeued.length := by
  have h := reach_hist hr
  refine ⟨h, ?_⟩
  rw [← h]
  exact (List.take_left s.dequeued s.jobs).symm

theorem fifo_dequeue_order_witness :
    demoDone.dequeued ++ demoDone.jobs = demoDone.submitted ∧
    demoDone.dequeued = demoDone.submitted.take demoDone.dequeued.length :=
  fifo_dequeue_order false 1 demoDone reach_demoDone

/-- Claim C9: the stop flag is monotonic: it is false right after
construction, the only step that changes it is the destructor's `setStop`
(and it changes it to true), every step preserves a true flag, and from any
state with the flag true every reachable state keeps it true. -/
theorem stop_flag_monotone :
    (∀ n : Int, (mkPool n).stop = false) ∧
    (∀ (late : Bool) (l : Label) (s s' : PoolState),
        Step late l s s' → s.stop = true → s'.stop = true) ∧
    (∀ (late : Bool) (l : Label) (s s' : PoolState),
        Step late l s s' → s'.stop ≠ s.stop →
        l = Label.setStop ∧ s'.stop = true) ∧
    (∀ (late : Bool) (s0 s : PoolState),
        Reach late s0 s → s0.stop = true → s.stop = true) :=
  ⟨fun _ => rfl, fun _ _ _ _ => step_stop_mono, fun _ _ _ _ => step_stop_writer,
   fun _ _ _ => reach_stop_mono⟩

theorem stop_flag_monotone_witness :
    Label.setStop = Label.setStop ∧ demoStopFlagged.stop = true :=
  stop_flag_monotone.2.2.1 false Label.setStop demoRan demoStopFlagged
    demo_step4 (by decide)

/-- Claim C10: the constructor does not validate its worker count: for every
`numOfWorkers ≤ 0` the spawn loop runs zero times so the pool has no workers;
such a pool still accepts `enqueue` (the job lands in the queue), no job is
ever executed in any reachable state, and destruction can complete (all-
workers-joined holds vacuously) leaving the enqueued job unrun in the
queue. -/
theorem nonpositive_workers_never_execute (n : Int) (hn : n ≤ 0) :
    (mkPool n).workers = [] ∧
    (enqueueImpl (mkPool n) 7).1.jobs = [7] ∧
    (∀ (late : Bool) (s : PoolState), Reach late (mkPool n) s →
        s.executed = []) ∧
    (∃ s : PoolState, Reach false (mkPool n) s ∧ s.done = true ∧
        s.jobs = [7] ∧ s.executed = []) := by
  have hw : (mkPool n).workers = [] := by
    rw [mkPool_workers]
    have h0 : n.toNat = 0 := by omega
    rw [h0]
    rfl
  have stepA : Step false (Label.enq 7) (mkPool n)
      (enqueueImpl (mkPool n) 7).1 :=
    Step.enq (mkPool n) 7 (Or.inr rfl)
  have stepB : Step false Label.setStop (enqueueImpl (mkPool n) 7).1
      { (enqueueImpl (mkPool n) 7).1 with stop := true } :=
    Step.setStop (enqueueImpl (mkPool n) 7).1
  have hall : ∀ w ∈ ({ (enqueueImpl (mkPool n) 7).1 with
      stop := true } : PoolState).workers, w = WStatus.stopped := by
    intro w hwm
    have hw2 : ({ (enqueueImpl (mkPool n) 7).1 with
        stop := true } : PoolState).workers = [] := hw
    rw [hw2] at hwm
    exact absurd hwm (List.not_mem_nil w)
  have stepC : Step false Label.complete
      { (enqueueImpl (mkPool n) 7).1 with stop := true }
      { { (enqueueImpl (mkPool n) 7).1 with stop := true } with done := true } :=
    Step.complete _ rfl hall
  refine ⟨hw, rfl, fun late s hr => (reach_zero_workers hr hn).2.1, ?_⟩
  refine ⟨_, Reach.tail (Reach.tail (Reach.tail Reach.refl stepA) stepB) stepC,
    rfl, rfl, rfl⟩

theorem nonpositive_workers_witness :
    (mkPool (-1)).workers = [] ∧
    (∃ s : PoolState, Reach false (mkPool (-1)) s ∧ s.done = true ∧
        s.jobs = [7] ∧ s.executed = []) :=
  ⟨(nonpositive_workers_never_execute (-1) (by norm_num)).1,
   (nonpositive_workers_never_execute (-1) (by norm_num)).2.2.2⟩

end WorkerPool
